import Mathlib

/-!
Verification development for the music-sentiment-seuron repository.

The Python sources are shallowly embedded: stochastic calls receive their
random draws as explicit arguments, numpy float arithmetic is modelled over
the rationals, and Python runtime errors (UnboundLocalError, IndexError,
TypeError on None) are surfaced through an error type.
-/

namespace SN

/-! ## Genetic algorithm (src/sentneuron/utils/ga.py) -/

/-- An individual of the population: a real-valued gene vector. -/
abbrev Ind := List ℚ

/-- Python runtime failures that the embedded code can raise. -/
inductive PyErr where
  | indexError
  | noneArith
  | noneFitness
  | noneSubscript
  | unboundLocalFitness
  deriving DecidableEq, Repr

/-- Auxiliary walk of `roullete_wheel`: `current` accumulates the fitness
entries; the first individual whose running sum strictly exceeds `pick` is
returned; falling off the end of the loop returns Python `None`. -/
def roulleteWheelAux {α : Type} : List α → List ℚ → ℚ → ℚ → Option α
  | f :: fs, w :: ws, current, pick =>
      if current + w > pick then some f else roulleteWheelAux fs ws (current + w) pick
  | _, _, _, _ => none

/-- Embeds `GeneticAlgorithm.roullete_wheel(fitness)`: `pick` is the value drawn by
`np.random.uniform(0, sum(fitness))`, passed explicitly here; `fits` is
`self.fits` (the population, one entry per fitness value). -/
def roullete_wheel {α : Type} (fits : List α) (fitness : List ℚ) (pick : ℚ) : Option α :=
  roulleteWheelAux fits fitness 0 pick

/-- Index-level variant of the same walk, used to reason about which pick
values select which population slot. -/
def wheelIndexAux : List ℚ → ℚ → ℚ → ℕ → Option ℕ
  | [], _, _, _ => none
  | w :: ws, current, pick, i =>
      if current + w > pick then some i else wheelIndexAux ws (current + w) pick (i + 1)

/-- Index returned by the roulette walk for a given pick. -/
def wheelIndex (fitness : List ℚ) (pick : ℚ) : Option ℕ :=
  wheelIndexAux fitness 0 pick 0

/-- Sum of the first `i` fitness entries (the running total of the wheel
just before slot `i` is examined). -/
def takeSum (fitness : List ℚ) (i : ℕ) : ℚ :=
  (fitness.take i).sum

/-- Probability that the roulette wheel run on `fitness` returns slot `i`,
with the pick drawn uniformly from `[0, sum fitness)`: the normalized length
of the interval of picks selecting slot `i`.  The lemma
`wheelIndex_eq_some_iff` identifies that interval as
`[takeSum fitness i, takeSum fitness (i+1))`. -/
def selProb (fitness : List ℚ) (i : ℕ) : ℚ :=
  (takeSum fitness (i + 1) - takeSum fitness i) / fitness.sum

/-- Joint sort of `self.fits` and `fitness` by `fitness.argsort()`:
`self.fits = self.fits[fitness.argsort()]` and
`fitness = fitness[fitness.argsort()]`.  Modelled as a stable sort of the
(fitness, individual) pairs by fitness; numpy leaves the relative order of
equal keys unspecified, and every claim settled here uses it on
pairwise-distinct keys, where every sort agrees with this one. -/
def sortByFitness {α : Type} (fits : List α) (fitness : List ℚ) : List α × List ℚ :=
  let zs := List.insertionSort (fun a b => a.1 ≤ b.1) (fitness.zip fits)
  (zs.map Prod.snd, zs.map Prod.fst)

/-- Embeds `GeneticAlgorithm.select(fitness)`.  Returns the new value of
`self.fits` (the population sorted by fitness), the sorted local `fitness`,
and `nextPop`: the elite prefix copied from the sorted population, the
remaining slots filled by `roullete_wheel` (which can yield `none`).
`picks i` is the uniform draw consumed by the wheel call of slot `i`.
Every call site has `fits.length = fitness.length = popSize`, so the
`List.get?` on an elite slot always yields `some`. -/
def select {α : Type} (fits : List α) (fitness : List ℚ) (picks : ℕ → ℚ)
    (elitism popSize : ℕ) : List α × List ℚ × List (Option α) :=
  let s := sortByFitness fits fitness
  (s.1, s.2,
    (List.range popSize).map (fun i =>
      if i < elitism then s.1.get? i else roullete_wheel s.1 s.2 (picks i)))

/-- Arithmetic crossover `(nextPop[i] + nextPop[i+1]) / 2` on gene vectors. -/
def avgInd (a b : Ind) : Ind :=
  (a.zip b).map (fun p => (p.1 + p.2) / 2)

/-- Embeds `GeneticAlgorithm.cross(nextPop)`: for `i` in
`range(elitism, popSize - 1)`, with draw `draws i < crossRate`, replace
`nextPop[i]` by the average with its successor.  Arithmetic on a `None`
slot raises a Python TypeError. -/
def cross (nextPop : List (Option Ind)) (draws : ℕ → ℚ) (crossRate : ℚ)
    (elitism popSize : ℕ) : Except PyErr (List (Option Ind)) :=
  (List.range' elitism (popSize - 1 - elitism)).foldlM (fun acc i =>
    if draws i < crossRate then
      match acc.get? i, acc.get? (i + 1) with
      | some (some a), some (some b) => .ok (acc.set i (some (avgInd a b)))
      | some none, _ => .error .noneArith
      | _, some none => .error .noneArith
      | _, _ => .error .indexError
    else .ok acc) nextPop

/-- One population slot of `GeneticAlgorithm.mutate`: for each gene, when
the draw fires, assign `self.fits[i][gene] = np.random.uniform(-10, 10)`
(the fresh value is `vals i g`); subscripting a `None` slot raises. -/
def mutateSlot (slot : Option Ind) (i : ℕ) (draws vals : ℕ → ℕ → ℚ)
    (mutRate : ℚ) (indSize : ℕ) : Except PyErr (Option Ind) :=
  (List.range indSize).foldlM (fun acc g =>
    if draws i g < mutRate then
      match acc with
      | none => .error .noneSubscript
      | some ind => .ok (some (ind.set g (vals i g)))
    else .ok acc) slot

/-- Embeds `GeneticAlgorithm.mutate(nextPop)`.  Faithful to the source: the loop
body writes to `self.fits[i][gene]`, never to the `nextPop` argument, so
the function returns the updated `self.fits` paired with `nextPop`
unchanged. -/
def mutate (fits nextPop : List (Option Ind)) (draws vals : ℕ → ℕ → ℚ)
    (mutRate : ℚ) (elitism popSize indSize : ℕ) :
    Except PyErr (List (Option Ind) × List (Option Ind)) := do
  let fits2 ← (List.range' elitism (popSize - elitism)).foldlM (fun acc i => do
      match acc.get? i with
      | none => throw PyErr.indexError
      | some slot => do
          let slot2 ← mutateSlot slot i draws vals mutRate indSize
          pure (acc.set i slot2)) fits
  pure (fits2, nextPop)

/-- Embeds `GeneticAlgorithm.evaluate`: fitness of each slot.  `calcFitness` is a
black-box score of one individual (it queries the generative model and the
classifier), abstracted as the oracle `fitOf`; calling it on a `None` slot
raises. -/
def evaluateGA (fitOf : Ind → ℚ) (pop : List (Option Ind)) : Except PyErr (List ℚ) :=
  pop.mapM (fun s =>
    match s with
    | some ind => Except.ok (fitOf ind)
    | none => Except.error PyErr.noneFitness)

/-- Random draws consumed by one generation of `evolve`: roulette picks for
`select`, uniform draws for `cross`, and draw/replacement pairs for
`mutate`. -/
structure EpochRand where
  picks : ℕ → ℚ
  crossDraws : ℕ → ℚ
  mutDraws : ℕ → ℕ → ℚ
  mutVals : ℕ → ℕ → ℚ

/-- The generation loop of `GeneticAlgorithm.evolve`: evaluate, select,
cross, mutate, then `self.fits = nextPop`.  Returns the final population
together with the fitness vector of the POPULATION EVALUATED LAST (the
local variable `fitness` that survives the loop); `none` when the loop body
never ran.  A `None` produced by the wheel and a `None` elite slot are the
same Python `None`, hence the `Option.join`.  The population `self.fits`
that `mutate` wrote into is dropped by the assignment `self.fits =
nextPop`, exactly as in the source. -/
def evolveLoop (fitOf : Ind → ℚ) (crossRate mutRate : ℚ)
    (elitism popSize indSize : ℕ) :
    List EpochRand → List (Option Ind) → Option (List ℚ) →
    Except PyErr (List (Option Ind) × Option (List ℚ))
  | [], fits, lastFit => .ok (fits, lastFit)
  | r :: rs, fits, _ => do
      let fitness ← evaluateGA fitOf fits
      let s := select fits fitness r.picks elitism popSize
      let nextPop := s.2.2.map Option.join
      let nextPop2 ← cross nextPop r.crossDraws crossRate elitism popSize
      let q ← mutate s.1 nextPop2 r.mutDraws r.mutVals mutRate elitism popSize indSize
      evolveLoop fitOf crossRate mutRate elitism popSize indSize rs q.2 (some fitness)

/-- Embeds `GeneticAlgorithm.evolve(epochs)`: run the generation loop once per
entry of `rands`, then `best = self.fits[fitness.argsort()][0]` — the final
population permuted by the argsort of the fitness vector of the PREVIOUS
population, indexed at 0.  With zero generations the local `fitness` is
unbound; indexing an empty population raises. -/
def evolve (fitOf : Ind → ℚ) (crossRate mutRate : ℚ)
    (elitism popSize indSize : ℕ) (rands : List EpochRand)
    (initPop : List (Option Ind)) : Except PyErr (Option Ind) := do
  let res ← evolveLoop fitOf crossRate mutRate elitism popSize indSize rands initPop none
  match res.2 with
  | none => throw PyErr.unboundLocalFitness
  | some fitness =>
      match (sortByFitness res.1 fitness).1.head? with
      | none => throw PyErr.indexError
      | some b => pure b

/-! ## Learning-rate bookkeeping of `fit_sequence`
(src/sentneuron/sentneuron.py, `__fit_sequence` and
`load_fit_sequence_checkpoint`). -/

/-- The two loop variables of `__fit_sequence` that drive the learning-rate
schedule. -/
structure LRState where
  epoch_lr : ℚ
  num_iters : ℕ
  deriving DecidableEq, Repr

/-- Initial state of an uninterrupted `__fit_sequence` run:
`num_iters = 1` and `epoch_lr = lr` (the `checkpoint == None` branch). -/
def lrInit (lr : ℚ) : LRState :=
  { epoch_lr := lr, num_iters := 1 }

/-- End-of-epoch update of `__fit_sequence`:
`epoch_lr = lr * (max_iter - num_iters)/max_iter` followed by
`num_iters += 1`, with `max_iter = epochs`. -/
def lrEpochStep (lr : ℚ) (epochs : ℕ) (s : LRState) : LRState :=
  { epoch_lr := lr * ((epochs : ℚ) - (s.num_iters : ℚ)) / (epochs : ℚ),
    num_iters := s.num_iters + 1 }

/-- Learning-rate state held by an uninterrupted `__fit_sequence` run while
it is executing epoch `k` (for every shard of that epoch: the state only
changes at epoch boundaries). -/
def uninterruptedState (lr : ℚ) (epochs : ℕ) : ℕ → LRState
  | 0 => lrInit lr
  | k + 1 => lrEpochStep lr epochs (uninterruptedState lr epochs k)

/-- Embeds `load_fit_sequence_checkpoint`, learning-rate part: the nested loops
recompute `num_iters` from the checkpointed epoch/shard position, then
`epoch_lr = lr * (max_iter - num_iters)/max_iter`.  The checkpointed
`epoch`, `shard`, `batch` and `loss` fields pass through unchanged and are
omitted. -/
def load_fit_sequence_checkpoint (seqDataLen maxIter : ℕ) (lr : ℚ)
    (epoch_in shard_in : ℕ) : ℚ × ℕ :=
  let n1 : ℕ := (List.range epoch_in).foldl
    (fun a _ => (List.range seqDataLen).foldl (fun b _ => b + 1) a) 0
  let num_iters : ℕ := (List.range shard_in).foldl (fun a _ => a + 1) n1
  (lr * ((maxIter : ℚ) - (num_iters : ℚ)) / (maxIter : ℚ), num_iters)

/-- Learning-rate state held by a `__fit_sequence` run resumed from a
checkpoint at `(epoch_in, shard_in)` while it is executing epoch
`epoch_in + j`: the initial state comes from
`load_fit_sequence_checkpoint`, later states from the same end-of-epoch
update as the uninterrupted run. -/
def resumedState (lr : ℚ) (epochs seqDataLen epoch_in shard_in : ℕ) : ℕ → LRState
  | 0 =>
      let c := load_fit_sequence_checkpoint seqDataLen epochs lr epoch_in shard_in
      { epoch_lr := c.1, num_iters := c.2 }
  | j + 1 => lrEpochStep lr epochs (resumedState lr epochs seqDataLen epoch_in shard_in j)

/-! ## Sequence generation (src/sentneuron/sentneuron.py, `generate_sequence`). -/

/-- One of the two recurrent tensors `h` or `c` of shape
`[n_layers, 1, hidden_size]`; the batch axis of size 1 is dropped, leaving
a list of layers, each a list of hidden values. -/
abbrev Tensor := List (List ℚ)

/-- Python runtime failures of `generate_sequence`. -/
inductive GenErr where
  | unboundLocalCell
  | unboundLocalX
  deriving DecidableEq, Repr

/-- The trained recurrent network, abstracted: `forward` maps an input
symbol and the previous `(h, c)` pair to the next pair and the output
logits; `initHidden` mirrors `init_hidden` (zero tensors). -/
structure SeqModel where
  nLayers : ℕ
  hiddenSize : ℕ
  forward : ℕ → Tensor × Tensor → (Tensor × Tensor) × List ℚ

/-- Embeds `init_hidden()`: zero `h` and `c` tensors. -/
def SeqModel.initHidden (m : SeqModel) : Tensor × Tensor :=
  (List.replicate m.nLayers (List.replicate m.hiddenSize 0),
   List.replicate m.nLayers (List.replicate m.hiddenSize 0))

/-- In-place add of `v` at position `j` of a hidden row
(`hidden[last, 0, neuron] += value` on one row). -/
def addAtIndex (row : List ℚ) (j : ℕ) (v : ℚ) : List ℚ :=
  row.set j (row.getD j 0 + v)

/-- The override loop of `generate_sequence`: each `(neuron, value)` of the
override map adds `value` to `hidden[hidden.size(0) - 1, 0, neuron]`. -/
def overrideHidden (ov : List (ℕ × ℚ)) (hidden : Tensor) : Tensor :=
  ov.foldl (fun h nv =>
    let last := h.length - 1
    h.set last (addAtIndex (h.getD last []) nv.1 nv.2)) hidden

/-- Loop state of the sampling loop of `generate_sequence`: the hidden/cell
pair, the local `x`, the accumulated `seq`, and the local variable `cell`
(unbound before the first iteration, hence the `Option`). -/
structure GenLoopState where
  hc : Tensor × Tensor
  x : ℕ
  seq : List ℕ
  cellVar : Option Tensor

/-- One iteration of the sampling loop: unpack `hidden, cell = hidden_cell`
(this is the binding the function body later reads as `cell`), apply the
override to the last layer of `hidden`, run `forward`, divide the logits by
`temperature`, and sample the next symbol (`torch.multinomial` after
softmax is abstracted as `sampleFn t` applied to the scaled logits, `t`
indexing the fresh randomness of step `t`). -/
def sampleStep (m : SeqModel) (sampleFn : ℕ → List ℚ → ℕ) (temperature : ℚ)
    (ov : List (ℕ × ℚ)) (t : ℕ) (s : GenLoopState) : GenLoopState :=
  let hidden := s.hc.1
  let cell := s.hc.2
  let hidden2 := overrideHidden ov hidden
  let fw := m.forward s.x (hidden2, cell)
  let x2 := sampleFn t (fw.2.map (fun z => z / temperature))
  { hc := fw.1, x := x2, seq := s.seq ++ [x2], cellVar := some cell }

/-- The sampling loop `for t in range(sample_len)`, with `n` iterations
remaining and `t` the current step index. -/
def sampleLoop (m : SeqModel) (sampleFn : ℕ → List ℚ → ℕ) (temperature : ℚ)
    (ov : List (ℕ × ℚ)) : ℕ → ℕ → GenLoopState → GenLoopState
  | 0, _, s => s
  | n + 1, t, s =>
      sampleLoop m sampleFn temperature ov n (t + 1)
        (sampleStep m sampleFn temperature ov t s)

/-- One iteration of the seed-priming loop of `generate_sequence`: feed the
encoded seed symbol `xt` through `forward`, remember it in the local `x`,
and append it to `seq` when `append_init` is set. -/
def primeStep (m : SeqModel) (append_init : Bool)
    (st : (Tensor × Tensor) × Option ℕ × List ℕ) (xt : ℕ) :
    (Tensor × Tensor) × Option ℕ × List ℕ :=
  let fw := m.forward xt st.1
  (fw.1, some xt, if append_init then st.2.2 ++ [xt] else st.2.2)

/-- The seed-priming loop, folding `primeStep` from a given state. -/
def primeLoopFrom (m : SeqModel) (append_init : Bool) :
    List ℕ → (Tensor × Tensor) × Option ℕ × List ℕ →
    (Tensor × Tensor) × Option ℕ × List ℕ
  | [], st => st
  | x :: xs, st => primeLoopFrom m append_init xs (primeStep m append_init st x)

/-- The seed-priming loop of `generate_sequence`, started on a fresh hidden
state, with the local `x` unbound and `seq` empty. -/
def primeLoop (m : SeqModel) (append_init : Bool) (xs : List ℕ) :
    (Tensor × Tensor) × Option ℕ × List ℕ :=
  primeLoopFrom m append_init xs (m.initHidden, none, [])

/-- Embeds `generate_sequence(seq_dataset, sample_init, sample_len, temperature,
override, append_init)`.

Modelled from the spec: the sequence codec (`seq_dataset.encode_sequence`
and `seq_dataset.decode`, whose module is not part of the sources) maps a
sequence to and from integer symbols symbol-by-symbol, so it is embedded as
the per-symbol maps `enc` and `dec`.

The body mirrors the source: prime on the encoded seed, then run
`sample_len` sampling steps; afterwards the function reads the loop-local
variable `cell` (NOT the `final_cell` it just unpacked), which raises
UnboundLocalError when the sampling loop never ran; the loop itself reads
the priming-local `x`, which raises when the seed was empty.  No
temperature validation of any kind is performed. -/
def generate_sequence {α : Type} (m : SeqModel) (enc : α → ℕ) (dec : ℕ → α)
    (sampleFn : ℕ → List ℚ → ℕ) (sample_init : List α) :
    ℕ → ℚ → List (ℕ × ℚ) → Bool → Except GenErr (List α × Tensor)
  | 0, _, _, _ => .error .unboundLocalCell
  | n + 1, temperature, override, append_init =>
      match (primeLoop m append_init (sample_init.map enc)).2.1 with
      | none => .error .unboundLocalX
      | some x0 =>
          let pr := primeLoop m append_init (sample_init.map enc)
          let st := sampleLoop m sampleFn temperature override (n + 1) 0
            { hc := pr.1, x := x0, seq := pr.2.2, cellVar := none }
          match st.cellVar with
          | none => .error .unboundLocalCell
          | some cell => .ok (st.seq.map dec, cell)

/-- The cell state after the last forward step of the whole run (priming
plus all `sample_len` sampling steps).  This is the `final_cell` that
`generate_sequence` unpacks and then fails to return; it is the reference
value the spec calls the final cell state.  `none` marks the runs on which
the source raises before reaching that point. -/
def generate_run_final_cell {α : Type} (m : SeqModel) (enc : α → ℕ)
    (sampleFn : ℕ → List ℚ → ℕ) (sample_init : List α) (sample_len : ℕ)
    (temperature : ℚ) (override : List (ℕ × ℚ)) (append_init : Bool) :
    Option Tensor :=
  let xs := sample_init.map enc
  let pr := primeLoop m append_init xs
  match sample_len with
  | 0 => none
  | n + 1 =>
      match pr.2.1 with
      | none => none
      | some x0 =>
          let st := sampleLoop m sampleFn temperature override (n + 1) 0
            { hc := pr.1, x := x0, seq := pr.2.2, cellVar := none }
          some st.hc.2

/-- Concrete one-layer, one-unit model whose forward step adds 1 to every
cell entry, keeps the hidden tensor, and emits the constant logit list
`[0]`: the cell state counts the number of forward steps performed. -/
def stepModel : SeqModel :=
  { nLayers := 1, hiddenSize := 1,
    forward := fun _ hc => ((hc.1, hc.2.map (fun row => row.map (fun z => z + 1))), [0]) }

/-- Concrete model emitting the constant logit list `[2]`, used to observe
the division of the logits by the temperature. -/
def tempModel : SeqModel :=
  { nLayers := 1, hiddenSize := 1,
    forward := fun _ hc => ((hc.1, hc.2), [2]) }

/-- Sampler that answers 7 exactly when the temperature-scaled logits it is
shown equal `[-2]` (the logits `[2]` of `tempModel` divided by the
temperature -1), and 0 otherwise. -/
def probeSampler : ℕ → List ℚ → ℕ :=
  fun _ ps => if ps = [-2] then 7 else 0

/-! ## Top-k salient dimensions (src/sentneuron/sentneuron.py,
`get_top_k_neuron_weights`). -/

/-- Transpose of the classifier coefficient matrix `self.sent_classfier.coef_`
(`weights = self.sent_classfier.coef_.T`): entry `(i, j)` of the result is
entry `(j, i)` of the input; rows of the result are hidden dimensions. -/
def transposeL (coef : List (List ℚ)) (hiddenSize : ℕ) : List (List ℚ) :=
  (List.range hiddenSize).map (fun i => coef.map (fun row => row.getD i 0))

/-- Embeds `weight_penalties = np.squeeze(np.linalg.norm(weights, ord=1, axis=1))`:
the L1 norm of each hidden dimension across classes. -/
def l1Norms (weightsT : List (List ℚ)) : List ℚ :=
  weightsT.map (fun row => (row.map (fun z => |z|)).sum)

/-- Walk of `np.argmax`: index of the first occurrence of the maximum value. -/
def argmaxAux : List ℚ → ℕ → ℕ → ℚ → ℕ
  | [], _, bi, _ => bi
  | a :: as, i, bi, bv =>
      if a > bv then argmaxAux as (i + 1) i a else argmaxAux as (i + 1) bi bv

/-- Embeds `np.argmax` over a nonempty list (numpy raises on an empty one; 0 is
returned here for the empty list, a case outside every claim). -/
def argmaxNp : List ℚ → ℕ
  | [] => 0
  | a :: as => argmaxAux as 1 0 a

/-- A list `p` is a valid result of `np.argsort(v)`: a permutation of the
index range whose induced value list is nondecreasing.  numpy fixes no
particular order among equal values (its default sort is not stable), so
the embedding quantifies over all valid results. -/
def ValidArgsort (v : List ℚ) (p : List ℕ) : Prop :=
  p.Perm (List.range v.length) ∧ (p.map (fun i => v.getD i 0)).Sorted (· ≤ ·)

/-- A list `q` is a valid result of `np.argpartition(v, -k)`: a permutation
of the index range whose last `k` positions hold indices of values at least
as large as every value indexed by the first `n - k` positions. -/
def ValidPartition (v : List ℚ) (k : ℕ) (q : List ℕ) : Prop :=
  q.Perm (List.range v.length) ∧
  ∀ i ∈ q.take (v.length - k), ∀ j ∈ q.drop (v.length - k),
    v.getD i 0 ≤ v.getD j 0

/-- The `k == 1` branch: `np.array([np.argmax(weight_penalties)])`. -/
def pathArgmax (v : List ℚ) : List ℕ :=
  [argmaxNp v]

/-- The `k >= np.log(len(weight_penalties))` branch:
`np.argsort(weight_penalties)[-k:][::-1]`, evaluated on the argsort result
`p`. -/
def pathArgsort (v : List ℚ) (k : ℕ) (p : List ℕ) : List ℕ :=
  (p.drop (p.length - k)).reverse

/-- The remaining branch:
`k_indices = np.argpartition(weight_penalties, -k)[-k:]` followed by
`(k_indices[np.argsort(weight_penalties[k_indices])])[::-1]`, evaluated on
the argpartition result `q` and the inner argsort result `r`. -/
def pathArgpartition (v : List ℚ) (k : ℕ) (q r : List ℕ) : List ℕ :=
  let s := q.drop (v.length - k)
  (r.map (fun j => s.getD j 0)).reverse

/-- Embeds `get_top_k_neuron_weights(k)`.  The dispatch between the full-argsort
branch and the argpartition branch compares `k` with the natural logarithm
of the dimension count, a choice the spec requires to be observationally
irrelevant; the branch outcome is therefore the explicit boolean `b`, and
the unspecified numpy sort results are the explicit arguments `p`, `q`,
`r`, constrained by `ValidArgsort` and `ValidPartition` in the theorems. -/
def get_top_k_neuron_weights (coef : List (List ℚ)) (hiddenSize k : ℕ)
    (b : Bool) (p q r : List ℕ) : List ℕ :=
  let v := l1Norms (transposeL coef hiddenSize)
  if k = 1 then pathArgmax v
  else if b then pathArgsort v k p
  else pathArgpartition v k q r

/-- Values of the `k` dimensions selected by the argpartition slice
`np.argpartition(weight_penalties, -k)[-k:]`; the inner
`np.argsort(weight_penalties[k_indices])` call of the source runs on this
list. -/
def selectedVals (v : List ℚ) (k : ℕ) (q : List ℕ) : List ℚ :=
  (q.drop (v.length - k)).map (fun i => v.getD i 0)

instance (v : List ℚ) (p : List ℕ) : Decidable (ValidArgsort v p) := by
  unfold ValidArgsort
  infer_instance

instance (v : List ℚ) (k : ℕ) (q : List ℕ) : Decidable (ValidPartition v k q) := by
  unfold ValidPartition
  infer_instance

/-! ## Concrete inputs used by the evaluation theorems. -/

/-- Fitness oracle reading the first gene of the individual. -/
def exFit : Ind → ℚ := fun ind => ind.headD 0

/-- Randomness of one `evolve` generation: roulette pick 5, crossover and
mutation draws 1 (so a `crossRate` or `mutRate` of 0 fires nothing). -/
def exRand : EpochRand :=
  { picks := fun _ => 5, crossDraws := fun _ => 1,
    mutDraws := fun _ _ => 1, mutVals := fun _ _ => 0 }

/-- Randomness of one `evolve` generation: roulette pick 5, mutation draws
0 (so a `mutRate` of 1 fires every gene) with replacement value 7. -/
def exRand4 : EpochRand :=
  { picks := fun _ => 5, crossDraws := fun _ => 1,
    mutDraws := fun _ _ => 0, mutVals := fun _ _ => 7 }


deriving instance DecidableEq for Except

/-! ## Theorems -/

/-- C1: the claim fails on the code.  With `epochs = 4`, a single-shard
dataset, `lr = 1` and a checkpoint at epoch 1, shard 0:
`load_fit_sequence_checkpoint` recomputes `num_iters = 1` (one count per
epoch per shard, plus the shard offset), while the uninterrupted
`__fit_sequence` loop holds `num_iters = 2` at that position (it
increments once per epoch only).  The learning rate of the resumed epoch
itself happens to agree, but the rate the resumed run uses for the
following epoch is `3/4 * lr` where the uninterrupted run uses
`1/2 * lr` — the resumed schedule runs one decay step behind. -/
theorem C1_checkpoint_schedule_mismatch :
    (load_fit_sequence_checkpoint 1 4 1 1 0).2 = 1 ∧
    (uninterruptedState 1 4 1).num_iters = 2 ∧
    (load_fit_sequence_checkpoint 1 4 1 1 0).2 ≠ (uninterruptedState 1 4 1).num_iters ∧
    (load_fit_sequence_checkpoint 1 4 1 1 0).1 = (uninterruptedState 1 4 1).epoch_lr ∧
    (resumedState 1 4 1 1 0 1).epoch_lr = 3 / 4 ∧
    (uninterruptedState 1 4 2).epoch_lr = 1 / 2 ∧
    (resumedState 1 4 1 1 0 1).epoch_lr ≠ (uninterruptedState 1 4 2).epoch_lr := by
  refine ⟨by decide, by decide, by decide,
    by norm_num [load_fit_sequence_checkpoint, uninterruptedState, lrEpochStep, lrInit,
      List.range_succ],
    by norm_num [resumedState, load_fit_sequence_checkpoint, lrEpochStep, List.range_succ],
    by norm_num [uninterruptedState, lrEpochStep, lrInit],
    by norm_num [resumedState, uninterruptedState, load_fit_sequence_checkpoint, lrEpochStep,
      lrInit, List.range_succ]⟩

/-- Shape of the roulette walk on the sorted fitness vector `[1, 2]`: the
two running-total comparisons are against 1 and 3. -/
theorem wheelShape_one_two (pick : ℚ) :
    roullete_wheel [[10], [20]] [1, 2] pick
      = if (1 : ℚ) > pick then some [10]
        else if (3 : ℚ) > pick then some [20] else none := by
  norm_num [roullete_wheel, roulleteWheelAux]

/-- C2: the claim fails on the code.  `roullete_wheel` samples each slot
with probability proportional to its RAW fitness entry: on the sorted
fitness vector `[1, 2]` the better individual (fitness 1, slot 0) is
selected exactly by the picks in `[0, 1)` and the worse one (fitness 2,
slot 1) exactly by the picks in `[1, 3)`, so with the pick uniform on
`[0, sum) = [0, 3)` the better individual has selection probability
`1/3 < 2/3` — the opposite of the inverse-fitness or rank weighting the
claim requires. -/
theorem C2_roulette_prefers_worse :
    (∀ pick : ℚ, 0 ≤ pick →
      (roullete_wheel [[10], [20]] [1, 2] pick = some [10] ↔ pick < 1)) ∧
    (∀ pick : ℚ, pick < 3 →
      (roullete_wheel [[10], [20]] [1, 2] pick = some [20] ↔ 1 ≤ pick)) ∧
    selProb [1, 2] 0 = 1 / 3 ∧ selProb [1, 2] 1 = 2 / 3 ∧
    selProb [1, 2] 0 < selProb [1, 2] 1 := by
  refine ⟨?_, ?_, by norm_num [selProb, takeSum], by norm_num [selProb, takeSum],
    by norm_num [selProb, takeSum]⟩
  · intro pick _
    rw [wheelShape_one_two]
    split_ifs with h1 h2
    · exact iff_of_true rfl h1
    · exact iff_of_false (by norm_num) (not_lt.mpr (not_lt.mp h1))
    · exact iff_of_false (by simp) (not_lt.mpr (le_trans (by norm_num) (not_lt.mp h2)))
  · intro pick h3
    rw [wheelShape_one_two]
    split_ifs with h1
    · exact iff_of_false (by norm_num) (not_le.mpr h1)
    · exact iff_of_true rfl (not_lt.mp h1)

/-- C2 witness: at the concrete pick 1/2 the wheel indeed returns the
better individual, matching the interval characterisation. -/
theorem C2_roulette_prefers_worse_witness :
    (0 : ℚ) ≤ 1 / 2 ∧
    (roullete_wheel [[10], [20]] [1, 2] (1 / 2) = some [10] ↔ (1 / 2 : ℚ) < 1) :=
  ⟨by norm_num, C2_roulette_prefers_worse.1 (1 / 2) (by norm_num)⟩

/-- C3 counterexample: one generation, population size 2, elitism 1,
initial population `[[10], [1]]`, fitness given by the first gene,
roulette pick 5.  The final population (after select/cross/mutate) is
`[[1], [10]]`, whose lowest-fitness member is `[1]`; but `evolve` returns
`[10]`, because its final line indexes the never-evaluated final
population with the argsort of the PREVIOUS population's fitness
vector. -/
theorem C3_counterexample :
    evolve exFit 0 0 1 2 1 [exRand] [some [10], some [1]] = .ok (some [10]) ∧
    evolveLoop exFit 0 0 1 2 1 [exRand] [some [10], some [1]] none
      = .ok ([some [1], some [10]], some [10, 1]) ∧
    some [1] ∈ [some ([1] : Ind), some [10]] ∧
    exFit [1] < exFit [10] := by
  refine ⟨?_, ?_, by decide, by norm_num [exFit]⟩
  · norm_num [evolve, evolveLoop, evaluateGA, select, sortByFitness, roullete_wheel,
      roulleteWheelAux, cross, mutate, mutateSlot, exFit, exRand, List.insertionSort,
      List.orderedInsert, List.range', List.foldlM, List.mapM, List.mapM.loop,
      List.range_succ, List.range_zero, Option.join, bind, Except.bind, pure, Except.pure]
  · norm_num [evolveLoop, evaluateGA, select, sortByFitness, roullete_wheel,
      roulleteWheelAux, cross, mutate, mutateSlot, exFit, exRand, List.insertionSort,
      List.orderedInsert, List.range', List.foldlM, List.mapM, List.mapM.loop,
      List.range_succ, List.range_zero, Option.join, bind, Except.bind, pure, Except.pure]

/-- C4: the claim fails on the code.  `mutate` writes its gene
replacements into `self.fits`, never into its `nextPop` argument: on the
failing input (elitism 1, population size 2, `mutRate = 1`, draws 0, fresh
value 7) the returned pair is the mutated `self.fits` together with
`nextPop` unchanged.  In `evolve` the subsequent assignment
`self.fits = nextPop` then discards those writes: a full generation with
`mutRate = 1` carries the un-mutated roulette picks (no gene equals the
replacement value 7) into the next population. -/
theorem C4_mutation_writes_discarded_state :
    mutate [some [0], some [0]] [some [5], some [6]]
        (fun _ _ => 0) (fun _ _ => 7) 1 1 2 1
      = .ok ([some [0], some [7]], [some [5], some [6]]) ∧
    evolveLoop exFit 0 1 1 2 1 [exRand4] [some [10], some [1]] none
      = .ok ([some [1], some [10]], some [10, 1]) := by
  constructor
  · norm_num [mutate, mutateSlot, List.range', List.foldlM, bind, Except.bind, pure,
      Except.pure]
  · norm_num [evolveLoop, evaluateGA, select, sortByFitness, roullete_wheel,
      roulleteWheelAux, cross, mutate, mutateSlot, exFit, exRand4, List.insertionSort,
      List.orderedInsert, List.range', List.foldlM, List.mapM, List.mapM.loop,
      List.range_succ, List.range_zero, Option.join, bind, Except.bind, pure, Except.pure]

/-- C5: the claim fails on the code.  On a model whose forward step adds 1
to every cell entry (so the cell counts forward steps), seed of length 1
and `sample_len = 1`: the run performs two forward steps, so the final
cell state is `[[2]]`, but `generate_sequence` returns `[[1]]` — the
loop-local `cell` unpacked at the top of the last iteration, before the
last forward step — even though the source computes
`final_hidden, final_cell = hidden_cell` one line earlier and ignores
it. -/
theorem C5_returns_stale_cell :
    generate_sequence stepModel id id (fun _ _ => 0) [0] 1 1 [] true
      = .ok ([0, 0], [[1]]) ∧
    generate_run_final_cell stepModel id (fun _ _ => 0) [0] 1 1 [] true
      = some [[2]] ∧
    ([[1]] : Tensor) ≠ [[2]] := by
  refine ⟨?_, ?_, by norm_num⟩
  · norm_num [generate_sequence, primeLoop, primeLoopFrom, primeStep, sampleLoop,
      sampleStep, overrideHidden, stepModel, SeqModel.initHidden]
  · norm_num [generate_run_final_cell, primeLoop, primeLoopFrom, primeStep, sampleLoop,
      sampleStep, overrideHidden, stepModel, SeqModel.initHidden]

/-- C6: the claim fails on the code.  With a one-symbol seed (the encoded
`"."`), `sample_len = 0` and empty override, the sampling loop never runs,
so the loop-local `cell` read by `np.squeeze(cell.data.cpu().numpy())` was
never assigned: the call raises UnboundLocalError instead of returning the
decoded seed. -/
theorem C6_length_zero_raises :
    generate_sequence stepModel id id (fun _ _ => 0) [0] 0 1 [] true
      = .error .unboundLocalCell := by
  decide

/-- C9: the claim fails on the code.  `generate_sequence` performs no
temperature validation: called with temperature -1 it completes normally,
dividing the logits by -1 before sampling — the probe sampler answers 7
exactly when shown the scaled logits `[-2]` (the model's logits `[2]`
divided by -1), and 7 indeed appears in the output. -/
theorem C9_no_temperature_validation :
    generate_sequence tempModel id id probeSampler [0] 1 (-1) [] true
      = .ok ([0, 7], [[0]]) := by
  norm_num [generate_sequence, primeLoop, primeLoopFrom, primeStep, sampleLoop,
    sampleStep, overrideHidden, tempModel, probeSampler, SeqModel.initHidden]

/-- C8 counterexample: with tied L1 norms the selection paths need not
agree.  For the single-class coefficient row `[1, 1, 0]` (penalties
`[1, 1, 0]`) and `k = 2`, the argsort result `[2, 0, 1]`, the argpartition
result `[2, 1, 0]` and the inner argsort result `[0, 1]` are all valid for
numpy's contracts (the tie order of its sorts is unspecified), yet the
full-argsort branch returns `[1, 0]` while the argpartition branch returns
`[0, 1]`. -/
theorem C8_counterexample :
    ValidArgsort [1, 1, 0] [2, 0, 1] ∧
    ValidPartition [1, 1, 0] 2 [2, 1, 0] ∧
    ValidArgsort (selectedVals [1, 1, 0] 2 [2, 1, 0]) [0, 1] ∧
    l1Norms (transposeL [[1, 1, 0]] 3) = [1, 1, 0] ∧
    get_top_k_neuron_weights [[1, 1, 0]] 3 2 true [2, 0, 1] [2, 1, 0] [0, 1] = [1, 0] ∧
    get_top_k_neuron_weights [[1, 1, 0]] 3 2 false [2, 0, 1] [2, 1, 0] [0, 1] = [0, 1] ∧
    ([1, 0] : List ℕ) ≠ [0, 1] := by
  have hv : l1Norms (transposeL [[1, 1, 0]] 3) = [1, 1, 0] := by
    norm_num [l1Norms, transposeL, List.range_succ]
  refine ⟨by decide, by decide, by decide, hv, ?_, ?_, by decide⟩
  · norm_num [get_top_k_neuron_weights, hv, pathArgsort]
  · norm_num [get_top_k_neuron_weights, hv, pathArgpartition, selectedVals]

/-- With an all-zero fitness tail the running total never exceeds a pick
it has not already exceeded, so the wheel walk falls through. -/
theorem roulleteWheelAux_zero {α : Type} :
    ∀ (fs : List α) (ws : List ℚ) (current pick : ℚ),
      (∀ w ∈ ws, w = 0) → current ≤ pick →
      roulleteWheelAux fs ws current pick = none := by
  intro fs
  induction fs with
  | nil => intro ws current pick _ _; cases ws <;> rfl
  | cons f fs ih =>
      intro ws current pick hz hc
      cases ws with
      | nil => rfl
      | cons w ws =>
          have hw : w = 0 := hz w (by simp)
          rw [roulleteWheelAux, if_neg (by rw [hw, add_zero]; exact not_lt.mpr hc)]
          exact ih ws (current + w) pick (fun u hu => hz u (by simp [hu]))
            (by rw [hw, add_zero]; exact hc)

/-- When the pick lies strictly below `current` plus the remaining fitness
mass, the wheel walk fires before falling off the end (given as many
population slots as fitness entries remain). -/
theorem roulleteWheelAux_pos {α : Type} :
    ∀ (ws : List ℚ) (fs : List α) (current pick : ℚ),
      ws.length ≤ fs.length → current ≤ pick → pick < current + ws.sum →
      ∃ a, roulleteWheelAux fs ws current pick = some a := by
  intro ws
  induction ws with
  | nil =>
      intro fs current pick _ hc hs
      rw [List.sum_nil, add_zero] at hs
      exact absurd hc (not_le.mpr hs)
  | cons w ws ih =>
      intro fs current pick hlen hc hs
      cases fs with
      | nil => simp at hlen
      | cons f fs =>
          rw [roulleteWheelAux]
          by_cases hfire : current + w > pick
          · exact ⟨f, if_pos hfire ▸ rfl⟩
          · rw [if_neg hfire]
            refine ih fs (current + w) pick (by simpa using hlen) (not_lt.mp hfire) ?_
            rw [List.sum_cons] at hs
            linarith

/-- Every entry of the sorted fitness vector produced by `sortByFitness`
is an entry of the original fitness vector. -/
theorem sortByFitness_snd_mem {α : Type} (fits : List α) (fitness : List ℚ)
    (w : ℚ) (hw : w ∈ (sortByFitness fits fitness).2) : w ∈ fitness := by
  unfold sortByFitness at hw
  simp only [List.mem_map] at hw
  obtain ⟨pair, hpair, hfst⟩ := hw
  have hmem : pair ∈ fitness.zip fits :=
    (List.perm_insertionSort (fun a b => a.1 ≤ b.1) (fitness.zip fits)).mem_iff.mp hpair
  exact hfst ▸ (List.of_mem_zip hmem).1

/-- C10: with an all-zero fitness vector (every individual exactly matches
the target sentiment, so every squared error is 0) the pick
`np.random.uniform(0, 0)` is 0 and `roullete_wheel` returns `None` for
every nonnegative pick, so `select` fills every non-elite slot of the next
population with `None`; conversely, whenever the fitness sum is strictly
positive, every pick inside `[0, sum)` makes the wheel return an actual
individual. -/
theorem C10_zero_fitness_gives_none {α : Type} (fits : List α) (fitness : List ℚ)
    (picks : ℕ → ℚ) (elitism popSize : ℕ)
    (hz : ∀ w ∈ fitness, w = 0) (hp : ∀ i, 0 ≤ picks i) :
    (∀ pick : ℚ, 0 ≤ pick → roullete_wheel fits fitness pick = none) ∧
    (∀ i, elitism ≤ i → i < popSize →
        (select fits fitness picks elitism popSize).2.2.get? i = some none) ∧
    (∀ (fits2 : List α) (fitness2 : List ℚ) (pick : ℚ),
        fitness2.length ≤ fits2.length → 0 ≤ pick → pick < fitness2.sum →
        ∃ a, roullete_wheel fits2 fitness2 pick = some a) := by
  refine ⟨fun pick hpick => roulleteWheelAux_zero fits fitness 0 pick hz hpick, ?_, ?_⟩
  · intro i hie hin
    unfold select
    rw [List.get?_map, List.get?_range hin]
    simp only [Option.map_some', Option.some.injEq]
    rw [if_neg (not_lt.mpr hie)]
    exact roulleteWheelAux_zero _ _ 0 (picks i)
      (fun w hw => hz w (sortByFitness_snd_mem fits fitness w hw)) (hp i)
  · intro fits2 fitness2 pick hlen hpick hsum
    exact roulleteWheelAux_pos fitness2 fits2 0 pick hlen hpick (by rw [zero_add]; exact hsum)

/-- C10 witness: population `[[1], [2]]` with fitness `[0, 0]`, elitism 1,
population size 2, all picks 0: the wheel returns `None`, the non-elite
slot 1 of the selected population holds `None`, and on the positive-sum
vector `[1, 2]` with pick 0 the wheel returns an individual. -/
theorem C10_zero_fitness_gives_none_witness :
    (∀ w ∈ [(0 : ℚ), 0], w = 0) ∧ (∀ i : ℕ, (0 : ℚ) ≤ (fun _ : ℕ => (0 : ℚ)) i) ∧
    ((∀ pick : ℚ, 0 ≤ pick → roullete_wheel [[(1 : ℚ)], [2]] [0, 0] pick = none) ∧
     (∀ i, 1 ≤ i → i < 2 →
        (select [[(1 : ℚ)], [2]] [0, 0] (fun _ => 0) 1 2).2.2.get? i = some none) ∧
     (∀ (fits2 : List Ind) (fitness2 : List ℚ) (pick : ℚ),
        fitness2.length ≤ fits2.length → 0 ≤ pick → pick < fitness2.sum →
        ∃ a, roullete_wheel fits2 fitness2 pick = some a)) :=
  ⟨by decide, fun _ => le_refl 0,
   C10_zero_fitness_gives_none [[(1 : ℚ)], [2]] [0, 0] (fun _ => 0) 1 2
     (by decide) (fun _ => le_refl 0)⟩

/-- The priming loop appends exactly one symbol per seed symbol to `seq`
when `append_init` is set, and none otherwise. -/
theorem primeLoopFrom_seq_len (m : SeqModel) (b : Bool) :
    ∀ (xs : List ℕ) (st : (Tensor × Tensor) × Option ℕ × List ℕ),
      (primeLoopFrom m b xs st).2.2.length
        = st.2.2.length + (if b then xs.length else 0) := by
  intro xs
  induction xs with
  | nil => intro st; simp [primeLoopFrom]
  | cons x xs ih =>
      intro st
      rw [primeLoopFrom, ih]
      cases b <;> simp [primeStep] <;> omega

/-- After priming on a nonempty seed the local `x` is bound. -/
theorem primeLoopFrom_x_some (m : SeqModel) (b : Bool) :
    ∀ (xs : List ℕ) (st : (Tensor × Tensor) × Option ℕ × List ℕ), xs ≠ [] →
      ∃ x0, (primeLoopFrom m b xs st).2.1 = some x0 := by
  intro xs
  induction xs with
  | nil => intro st h; exact absurd rfl h
  | cons x xs ih =>
      intro st _
      cases xs with
      | nil => exact ⟨x, rfl⟩
      | cons y ys => exact ih (primeStep m b st x) (by simp)

/-- Each sampling iteration appends exactly one symbol to `seq`. -/
theorem sampleLoop_seq_len (m : SeqModel) (sampleFn : ℕ → List ℚ → ℕ)
    (temperature : ℚ) (ov : List (ℕ × ℚ)) :
    ∀ (n t : ℕ) (s : GenLoopState),
      (sampleLoop m sampleFn temperature ov n t s).seq.length = s.seq.length + n := by
  intro n
  induction n with
  | zero => intro t s; simp [sampleLoop]
  | succ n ih =>
      intro t s
      rw [sampleLoop, ih]
      simp [sampleStep]
      omega

/-- After at least one sampling iteration the loop-local `cell` is bound. -/
theorem sampleLoop_cellVar_some (m : SeqModel) (sampleFn : ℕ → List ℚ → ℕ)
    (temperature : ℚ) (ov : List (ℕ × ℚ)) :
    ∀ (n t : ℕ) (s : GenLoopState),
      ∃ c, (sampleLoop m sampleFn temperature ov (n + 1) t s).cellVar = some c := by
  intro n
  induction n with
  | zero => intro t s; exact ⟨s.hc.2, rfl⟩
  | succ n ih =>
      intro t s
      rw [sampleLoop]
      exact ih (t + 1) (sampleStep m sampleFn temperature ov t s)

/-- With a nonempty seed and a positive requested length, generation
completes and produces the seed length (when appended) plus the requested
length. -/
theorem generate_sequence_ok_len {α : Type} (m : SeqModel) (enc : α → ℕ) (dec : ℕ → α)
    (sampleFn : ℕ → List ℚ → ℕ) (seed : List α) (n : ℕ) (temp : ℚ)
    (ov : List (ℕ × ℚ)) (b : Bool) (hseed : seed ≠ []) :
    ∃ out c, generate_sequence m enc dec sampleFn seed (n + 1) temp ov b = .ok (out, c) ∧
      out.length = (if b then seed.length else 0) + (n + 1) := by
  have hxs : seed.map enc ≠ [] := fun h => hseed (List.map_eq_nil.mp h)
  obtain ⟨x0, hx0⟩ := primeLoopFrom_x_some m b (seed.map enc) (m.initHidden, none, []) hxs
  have hx0' : (primeLoop m b (seed.map enc)).2.1 = some x0 := hx0
  obtain ⟨c, hc⟩ := sampleLoop_cellVar_some m sampleFn temp ov n 0
    { hc := (primeLoop m b (seed.map enc)).1, x := x0,
      seq := (primeLoop m b (seed.map enc)).2.2, cellVar := none }
  refine ⟨(sampleLoop m sampleFn temp ov (n + 1) 0
      { hc := (primeLoop m b (seed.map enc)).1, x := x0,
        seq := (primeLoop m b (seed.map enc)).2.2, cellVar := none }).seq.map dec, c, ?_, ?_⟩
  · simp only [generate_sequence, hx0', hc]
  · rw [List.length_map, sampleLoop_seq_len]
    have hp := primeLoopFrom_seq_len m b (seed.map enc) (m.initHidden, none, [])
    simp only [List.length_nil, List.length_map, zero_add] at hp
    unfold primeLoop
    rw [hp]

/-- C7: for every model, codec, sampler, nonempty seed and length `L > 0`,
`generate_sequence` completes and the returned sequence has length
`len(seed) + L` with `append_init = True` and length `L` with
`append_init = False` (the per-symbol codec preserves length). -/
theorem C7_generate_length {α : Type} (m : SeqModel) (enc : α → ℕ) (dec : ℕ → α)
    (sampleFn : ℕ → List ℚ → ℕ) (seed : List α) (L : ℕ) (temp : ℚ)
    (ov : List (ℕ × ℚ)) (hseed : seed ≠ []) (hL : 0 < L) :
    ∃ outT cT outF cF,
      generate_sequence m enc dec sampleFn seed L temp ov true = .ok (outT, cT) ∧
      outT.length = seed.length + L ∧
      generate_sequence m enc dec sampleFn seed L temp ov false = .ok (outF, cF) ∧
      outF.length = L := by
  obtain ⟨n, rfl⟩ : ∃ n, L = n + 1 := ⟨L - 1, (Nat.succ_pred_eq_of_pos hL).symm⟩
  obtain ⟨outT, cT, hT, hTlen⟩ :=
    generate_sequence_ok_len m enc dec sampleFn seed n temp ov true hseed
  obtain ⟨outF, cF, hF, hFlen⟩ :=
    generate_sequence_ok_len m enc dec sampleFn seed n temp ov false hseed
  exact ⟨outT, cT, outF, cF, hT, by simpa using hTlen, hF, by simpa using hFlen⟩

/-- C7 witness: seed `[5, 6]`, length 3 on the step-counting model. -/
theorem C7_generate_length_witness :
    ([5, 6] : List ℕ) ≠ [] ∧ 0 < 3 ∧
    (∃ outT cT outF cF,
      generate_sequence stepModel id id (fun _ _ => 0) [5, 6] 3 1 [] true
        = .ok (outT, cT) ∧
      outT.length = [5, 6].length + 3 ∧
      generate_sequence stepModel id id (fun _ _ => 0) [5, 6] 3 1 [] false
        = .ok (outF, cF) ∧
      outF.length = 3) :=
  ⟨by decide, by decide,
   C7_generate_length stepModel id id (fun _ _ => 0) [5, 6] 3 1 [] (by decide) (by decide)⟩

/-- C3 amended: after at least one generation, `evolve` returns the member
of the final population sitting at a position where the fitness vector of
the PREVIOUS (last evaluated) population is minimal — the final population
itself is never evaluated, so the returned individual need not have the
lowest fitness within the final population. -/
theorem C3_amended (fitOf : Ind → ℚ) (crossRate mutRate : ℚ)
    (elitism popSize indSize : ℕ) (rands : List EpochRand)
    (initPop finalPop : List (Option Ind)) (lastFit : List ℚ)
    (hrun : evolveLoop fitOf crossRate mutRate elitism popSize indSize rands initPop none
        = .ok (finalPop, some lastFit))
    (hlen : lastFit.length = finalPop.length) (hne : finalPop ≠ []) :
    ∃ (b : Option Ind) (i : ℕ) (wi : ℚ),
      evolve fitOf crossRate mutRate elitism popSize indSize rands initPop = .ok b ∧
      finalPop[i]? = some b ∧ lastFit[i]? = some wi ∧ ∀ w ∈ lastFit, wi ≤ w := by
  haveI : IsTotal (ℚ × Option Ind) (fun a b => a.1 ≤ b.1) := ⟨fun a b => le_total a.1 b.1⟩
  haveI : IsTrans (ℚ × Option Ind) (fun a b => a.1 ≤ b.1) :=
    ⟨fun _ _ _ h1 h2 => le_trans h1 h2⟩
  have hziplen : (lastFit.zip finalPop).length = lastFit.length := by
    rw [List.length_zip, hlen, min_self]
  have hperm := List.perm_insertionSort (fun a b : ℚ × Option Ind => a.1 ≤ b.1)
    (lastFit.zip finalPop)
  have hsorted := List.sorted_insertionSort (fun a b : ℚ × Option Ind => a.1 ≤ b.1)
    (lastFit.zip finalPop)
  obtain ⟨z, zs', hzs⟩ : ∃ z zs',
      List.insertionSort (fun a b : ℚ × Option Ind => a.1 ≤ b.1) (lastFit.zip finalPop)
        = z :: zs' := by
    cases h : List.insertionSort (fun a b : ℚ × Option Ind => a.1 ≤ b.1)
        (lastFit.zip finalPop) with
    | nil =>
        exfalso
        have h1 : (lastFit.zip finalPop).length = 0 := by
          rw [← hperm.length_eq, h, List.length_nil]
        rw [hziplen, hlen] at h1
        exact hne (List.length_eq_zero.mp h1)
    | cons a l => exact ⟨a, l, rfl⟩
  have hzmem : z ∈ lastFit.zip finalPop := hperm.subset (hzs ▸ List.mem_cons_self z zs')
  obtain ⟨i, hilt, hiz⟩ := List.mem_iff_getElem.mp hzmem
  have hilt2 : i < lastFit.length := by rw [← hziplen]; exact hilt
  have hilt3 : i < finalPop.length := by rw [← hlen]; exact hilt2
  have hz1 : lastFit[i] = z.1 := by
    have hzz := @List.getElem_zip ℚ (Option Ind) lastFit finalPop i hilt
    rw [hiz] at hzz
    exact congrArg Prod.fst hzz.symm
  have hz2 : finalPop[i] = z.2 := by
    have hzz := @List.getElem_zip ℚ (Option Ind) lastFit finalPop i hilt
    rw [hiz] at hzz
    exact congrArg Prod.snd hzz.symm
  refine ⟨z.2, i, z.1, ?_, ?_, ?_, ?_⟩
  · simp only [evolve, hrun, bind, Except.bind, sortByFitness, hzs, List.map_cons,
      List.head?_cons, pure, Except.pure]
  · rw [List.getElem?_eq_getElem hilt3, hz2]
  · rw [List.getElem?_eq_getElem hilt2, hz1]
  · intro w hw
    have hw2 : w ∈ (lastFit.zip finalPop).map Prod.fst := by
      rw [List.map_fst_zip lastFit finalPop (le_of_eq hlen)]
      exact hw
    obtain ⟨pair, hpmem, hpfst⟩ := List.mem_map.mp hw2
    have hpzs : pair ∈ z :: zs' := hzs ▸ (hperm.mem_iff.mpr hpmem)
    rcases List.mem_cons.mp hpzs with hpz | hpz
    · rw [← hpfst, hpz]
    · have := (List.sorted_cons.mp (hzs ▸ hsorted)).1 pair hpz
      rw [← hpfst]
      exact this

/-- C3 amended, witness: on the concrete one-generation run, the returned
individual `[10]` sits at the index of the final population where the
previous fitness vector `[10, 1]` takes its minimum. -/
theorem C3_amended_witness :
    (evolveLoop exFit 0 0 1 2 1 [exRand] [some [10], some [1]] none
      = .ok ([some [1], some [10]], some [10, 1])) ∧
    ([(10 : ℚ), 1].length = [some ([1] : Ind), some [10]].length) ∧
    ([some ([1] : Ind), some [10]] ≠ []) ∧
    (∃ (b : Option Ind) (i : ℕ) (wi : ℚ),
      evolve exFit 0 0 1 2 1 [exRand] [some [10], some [1]] = .ok b ∧
      [some ([1] : Ind), some [10]][i]? = some b ∧
      [(10 : ℚ), 1][i]? = some wi ∧ ∀ w ∈ [(10 : ℚ), 1], wi ≤ w) := by
  have hrun : evolveLoop exFit 0 0 1 2 1 [exRand] [some [10], some [1]] none
      = .ok ([some [1], some [10]], some [10, 1]) := by
    norm_num [evolveLoop, evaluateGA, select, sortByFitness, roullete_wheel,
      roulleteWheelAux, cross, mutate, mutateSlot, exFit, exRand, List.insertionSort,
      List.orderedInsert, List.range', List.foldlM, List.mapM, List.mapM.loop,
      List.range_succ, List.range_zero, Option.join, bind, Except.bind, pure, Except.pure]
  exact ⟨hrun, by decide, by decide,
    C3_amended exFit 0 0 1 2 1 [exRand] [some [10], some [1]] [some [1], some [10]]
      [10, 1] hrun (by decide) (by decide)⟩

/-- Two lists that are permutations of each other and have equal images
under a map that is injective on their members are equal. -/
theorem eq_of_perm_of_map_eq {α β : Type} (f : α → β) :
    ∀ (p p' : List α), p.Perm p' → p.map f = p'.map f →
      (∀ a ∈ p, ∀ b ∈ p, f a = f b → a = b) → p = p' := by
  intro p
  induction p with
  | nil =>
      intro p' hperm _ _
      exact (hperm.symm.eq_nil).symm
  | cons a t ih =>
      intro p' hperm hmap hinj
      cases p' with
      | nil => exact absurd hperm.eq_nil (by simp)
      | cons b t' =>
          simp only [List.map_cons, List.cons.injEq] at hmap
          have hba : b = a := by
            have hbmem : b ∈ a :: t := hperm.mem_iff.mpr (List.mem_cons_self b t')
            exact (hinj a (List.mem_cons_self a t) b hbmem hmap.1).symm
          subst hba
          have htperm : t.Perm t' := hperm.cons_inv
          have hteq : t = t' := ih t' htperm hmap.2
            (fun x hx y hy hf => hinj x (List.mem_cons_of_mem b hx)
              y (List.mem_cons_of_mem b hy) hf)
          rw [hteq]

/-- Index lists that enumerate the same indices (as multisets) in
nondecreasing order of their values are equal, provided the values are
pairwise distinct below `v.length` and the indices stay below it. -/
theorem sorted_indices_unique (v : List ℚ) (u A : List ℕ) (hperm : u.Perm A)
    (hu : (u.map (fun i => v.getD i 0)).Sorted (· ≤ ·))
    (hA : (A.map (fun i => v.getD i 0)).Sorted (· ≤ ·))
    (hbound : ∀ a ∈ A, a < v.length)
    (hinj : ∀ i ∈ List.range v.length, ∀ j ∈ List.range v.length,
        v.getD i 0 = v.getD j 0 → i = j) :
    u = A := by
  have hmap : u.map (fun i => v.getD i 0) = A.map (fun i => v.getD i 0) :=
    List.eq_of_perm_of_sorted (hperm.map (fun i => v.getD i 0)) hu hA
  refine eq_of_perm_of_map_eq (fun i => v.getD i 0) u A hperm hmap ?_
  intro a ha b hb hf
  have ha2 : a < v.length := hbound a (hperm.mem_iff.mp ha)
  have hb2 : b < v.length := hbound b (hperm.mem_iff.mp hb)
  exact hinj a (List.mem_range.mpr ha2) b (List.mem_range.mpr hb2) hf

/-- With pairwise-distinct values there is exactly one valid argsort
result. -/
theorem validArgsort_unique (v : List ℚ) (p p' : List ℕ)
    (hp : ValidArgsort v p) (hp' : ValidArgsort v p')
    (hinj : ∀ i ∈ List.range v.length, ∀ j ∈ List.range v.length,
        v.getD i 0 = v.getD j 0 → i = j) :
    p = p' := by
  refine sorted_indices_unique v p p' (hp.1.trans hp'.1.symm) hp.2 hp'.2 ?_ hinj
  intro a ha
  exact List.mem_range.mp (hp'.1.mem_iff.mp ha)

/-- A valid argsort result enumerates all indices. -/
theorem validArgsort_length (v : List ℚ) (p : List ℕ) (hp : ValidArgsort v p) :
    p.length = v.length :=
  hp.1.length_eq.trans (List.length_range _)

/-- A valid argsort result has no duplicate indices. -/
theorem validArgsort_nodup (v : List ℚ) (p : List ℕ) (hp : ValidArgsort v p) :
    p.Nodup :=
  hp.1.nodup_iff.mpr (List.nodup_range _)

/-- In a value-sorted index list every prefix value is bounded by every
suffix value. -/
theorem sorted_take_le_drop (v : List ℚ) (p : List ℕ) (m : ℕ)
    (hs : (p.map (fun i => v.getD i 0)).Sorted (· ≤ ·)) :
    ∀ a ∈ p.take m, ∀ b ∈ p.drop m, v.getD a 0 ≤ v.getD b 0 := by
  intro a ha b hb
  have h1 : p.map (fun i => v.getD i 0)
      = (p.take m).map (fun i => v.getD i 0) ++ (p.drop m).map (fun i => v.getD i 0) := by
    rw [← List.map_append, List.take_append_drop]
  rw [h1] at hs
  exact (List.pairwise_append.mp hs).2.2 (v.getD a 0)
    (List.mem_map_of_mem (fun i => v.getD i 0) ha)
    (v.getD b 0) (List.mem_map_of_mem (fun i => v.getD i 0) hb)

/-- The full-argsort branch returns `k` distinct in-range indices sorted by
nonincreasing value. -/
theorem pathArgsort_props (v : List ℚ) (k : ℕ) (p : List ℕ)
    (hp : ValidArgsort v p) (hk : k ≤ v.length) :
    (pathArgsort v k p).length = k ∧ (pathArgsort v k p).Nodup ∧
    (∀ i ∈ pathArgsort v k p, i < v.length) ∧
    ((pathArgsort v k p).map (fun i => v.getD i 0)).Sorted (· ≥ ·) := by
  have hlen : p.length = v.length := validArgsort_length v p hp
  refine ⟨?_, ?_, ?_, ?_⟩
  · rw [pathArgsort, List.length_reverse, List.length_drop, hlen]
    omega
  · rw [pathArgsort, List.nodup_reverse]
    exact (List.drop_sublist _ _).nodup (validArgsort_nodup v p hp)
  · intro i hi
    rw [pathArgsort, List.mem_reverse] at hi
    exact List.mem_range.mp (hp.1.subset (List.drop_subset _ p hi))
  · rw [pathArgsort, List.map_reverse]
    have hdrop : ((p.drop (p.length - k)).map (fun i => v.getD i 0)).Sorted (· ≤ ·) := by
      rw [List.map_drop]
      exact hp.2.sublist (List.drop_sublist _ _)
    exact List.pairwise_reverse.mpr hdrop

/-- With pairwise-distinct values the last `k` slots of any valid
argpartition result hold the same index set as the last `k` slots of any
valid argsort result. -/
theorem partition_drop_perm (v : List ℚ) (k : ℕ) (p q : List ℕ)
    (hp : ValidArgsort v p) (hq : ValidPartition v k q) (hk : k ≤ v.length)
    (hinj : ∀ i ∈ List.range v.length, ∀ j ∈ List.range v.length,
        v.getD i 0 = v.getD j 0 → i = j) :
    (q.drop (v.length - k)).Perm (p.drop (v.length - k)) := by
  have hplen : p.length = v.length := validArgsort_length v p hp
  have hqlen : q.length = v.length := hq.1.length_eq.trans (List.length_range _)
  have hpnodup : p.Nodup := validArgsort_nodup v p hp
  have hqnodup : q.Nodup := hq.1.nodup_iff.mpr (List.nodup_range _)
  have hAnodup : (p.drop (v.length - k)).Nodup := (List.drop_sublist _ _).nodup hpnodup
  have hBnodup : (q.drop (v.length - k)).Nodup := (List.drop_sublist _ _).nodup hqnodup
  have hAlen : (p.drop (v.length - k)).length = k := by
    rw [List.length_drop, hplen]; omega
  have hBlen : (q.drop (v.length - k)).length = k := by
    rw [List.length_drop, hqlen]; omega
  have hsub : q.drop (v.length - k) ⊆ p.drop (v.length - k) := by
    intro i hiB
    by_contra hiA
    have hiq : i ∈ q := List.drop_subset _ q hiB
    have hin : i < v.length := List.mem_range.mp (hq.1.subset hiq)
    have hip : i ∈ p := hp.1.mem_iff.mpr (List.mem_range.mpr hin)
    have hipt : i ∈ p.take (v.length - k) := by
      rcases List.mem_append.mp ((List.take_append_drop (v.length - k) p) ▸ hip) with h | h
      · exact h
      · exact absurd h hiA
    obtain ⟨j, hjA, hjB⟩ : ∃ j ∈ p.drop (v.length - k), j ∉ q.drop (v.length - k) := by
      by_contra hno
      push_neg at hno
      have hASub : p.drop (v.length - k) ⊆ q.drop (v.length - k) := hno
      have hAB : (p.drop (v.length - k)).Perm (q.drop (v.length - k)) :=
        (hAnodup.subperm hASub).perm_of_length_le (by rw [hAlen, hBlen])
      exact hiA (hAB.mem_iff.mpr hiB)
    have hij : v.getD i 0 ≤ v.getD j 0 :=
      sorted_take_le_drop v p (v.length - k) hp.2 i hipt j hjA
    have hjq : j ∈ q := hq.1.mem_iff.mpr
      (List.mem_range.mpr (List.mem_range.mp (hp.1.subset (List.drop_subset _ p hjA))))
    have hjqt : j ∈ q.take (v.length - k) := by
      rcases List.mem_append.mp ((List.take_append_drop (v.length - k) q) ▸ hjq) with h | h
      · exact h
      · exact absurd h hjB
    have hji : v.getD j 0 ≤ v.getD i 0 := hq.2 j hjqt i hiB
    have hjn : j < v.length := List.mem_range.mp (hp.1.subset (List.drop_subset _ p hjA))
    have : i = j := hinj i (List.mem_range.mpr hin) j (List.mem_range.mpr hjn)
      (le_antisymm hij hji)
    exact hjB (this ▸ hiB)
  exact (hBnodup.subperm hsub).perm_of_length_le (by rw [hAlen, hBlen])

/-- Reading a list back through `getD` over its index range reproduces the
list. -/
theorem range_map_getD {α : Type} (l : List α) (d : α) :
    (List.range l.length).map (fun i => l.getD i d) = l := by
  apply List.ext_getElem
  · rw [List.length_map, List.length_range]
  · intro i h1 h2
    rw [List.getElem_map, List.getElem_range]
    exact List.getD_eq_getElem l d h2

/-- Reading `getD` through a mapped list evaluates the function at the underlying
entry, for in-range indices. -/
theorem getD_map_lt {α β : Type} (f : α → β) (l : List α) (i : ℕ)
    (d : β) (d2 : α) (h : i < l.length) :
    (l.map f).getD i d = f (l.getD i d2) := by
  rw [List.getD_eq_getElem _ d (by rw [List.length_map]; exact h),
    List.getElem_map, List.getD_eq_getElem _ d2 h]

/-- With pairwise-distinct values the argpartition branch agrees with the
full-argsort branch. -/
theorem pathArgpartition_eq_pathArgsort (v : List ℚ) (k : ℕ) (p q r : List ℕ)
    (hp : ValidArgsort v p) (hq : ValidPartition v k q)
    (hr : ValidArgsort (selectedVals v k q) r) (hk : k ≤ v.length)
    (hinj : ∀ i ∈ List.range v.length, ∀ j ∈ List.range v.length,
        v.getD i 0 = v.getD j 0 → i = j) :
    pathArgpartition v k q r = pathArgsort v k p := by
  have hplen : p.length = v.length := validArgsort_length v p hp
  have hwlen : (selectedVals v k q).length = (q.drop (v.length - k)).length := by
    rw [selectedVals, List.length_map]
  have hu_perm_s : (r.map (fun j => (q.drop (v.length - k)).getD j 0)).Perm
      (q.drop (v.length - k)) := by
    have h1 : r.Perm (List.range (q.drop (v.length - k)).length) := hwlen ▸ hr.1
    have h2 := h1.map (fun j => (q.drop (v.length - k)).getD j 0)
    rw [range_map_getD (q.drop (v.length - k)) 0] at h2
    exact h2
  have hu_sorted : ((r.map (fun j => (q.drop (v.length - k)).getD j 0)).map
      (fun i => v.getD i 0)).Sorted (· ≤ ·) := by
    have h2 := hr.2
    have h3 : r.map (fun j => (selectedVals v k q).getD j 0)
        = (r.map (fun j => (q.drop (v.length - k)).getD j 0)).map
            (fun i => v.getD i 0) := by
      rw [List.map_map]
      refine List.map_congr_left ?_
      intro j hj
      have hjlt : j < (q.drop (v.length - k)).length := by
        rw [← hwlen]
        exact List.mem_range.mp (hr.1.subset hj)
      exact getD_map_lt (fun i => v.getD i 0) (q.drop (v.length - k)) j 0 0 hjlt
    rw [← h3]
    exact h2
  have hA_sorted : ((p.drop (v.length - k)).map (fun i => v.getD i 0)).Sorted (· ≤ ·) := by
    rw [List.map_drop]
    exact hp.2.sublist (List.drop_sublist _ _)
  have hperm : (r.map (fun j => (q.drop (v.length - k)).getD j 0)).Perm
      (p.drop (v.length - k)) :=
    hu_perm_s.trans (partition_drop_perm v k p q hp hq hk hinj)
  have hbound : ∀ a ∈ p.drop (v.length - k), a < v.length := by
    intro a ha
    exact List.mem_range.mp (hp.1.subset (List.drop_subset _ p ha))
  have hueq : r.map (fun j => (q.drop (v.length - k)).getD j 0) = p.drop (v.length - k) :=
    sorted_indices_unique v _ _ hperm hu_sorted hA_sorted hbound hinj
  show (r.map (fun j => (q.drop (v.length - k)).getD j 0)).reverse
      = (p.drop (p.length - k)).reverse
  rw [hueq, hplen]

/-- The argmax walk keeps its answer below the scanned range. -/
theorem argmaxAux_lt :
    ∀ (l : List ℚ) (i bi : ℕ) (bv : ℚ), bi < i → argmaxAux l i bi bv < i + l.length := by
  intro l
  induction l with
  | nil =>
      intro i bi bv h
      simpa [argmaxAux] using h
  | cons a as ih =>
      intro i bi bv h
      rw [argmaxAux]
      split_ifs with hgt
      · have h2 := ih (i + 1) i a (Nat.lt_succ_self i)
        simp only [List.length_cons]
        omega
      · have h2 := ih (i + 1) bi bv (Nat.lt_succ_of_lt h)
        simp only [List.length_cons]
        omega

/-- The embedded `np.argmax` returns an in-range index on a nonempty vector. -/
theorem argmaxNp_lt (v : List ℚ) (hv : v ≠ []) : argmaxNp v < v.length := by
  cases v with
  | nil => exact absurd rfl hv
  | cons a as =>
      rw [argmaxNp]
      have h := argmaxAux_lt as 1 0 a (by omega)
      simp only [List.length_cons]
      omega

/-- C8 amended: for every coefficient matrix whose per-dimension L1 norms
are pairwise distinct and every `1 ≤ k < hidden_size`,
`get_top_k_neuron_weights` returns the same index list whichever dispatch
branch is taken and whichever valid (numpy-unspecified) sort results feed
it; the result always consists of exactly `k` distinct indices inside
`[0, hidden_size)` listed in nonincreasing order of L1 norm.  Without the
distinctness hypothesis the branches may differ. -/
theorem C8_amended (coef : List (List ℚ)) (hiddenSize k : ℕ) (b b' : Bool)
    (p p' q q' r r' : List ℕ)
    (hk1 : 1 ≤ k) (hkn : k < (l1Norms (transposeL coef hiddenSize)).length)
    (hinj : ∀ i ∈ List.range (l1Norms (transposeL coef hiddenSize)).length,
        ∀ j ∈ List.range (l1Norms (transposeL coef hiddenSize)).length,
        (l1Norms (transposeL coef hiddenSize)).getD i 0
          = (l1Norms (transposeL coef hiddenSize)).getD j 0 → i = j)
    (hp : ValidArgsort (l1Norms (transposeL coef hiddenSize)) p)
    (hp' : ValidArgsort (l1Norms (transposeL coef hiddenSize)) p')
    (hq : ValidPartition (l1Norms (transposeL coef hiddenSize)) k q)
    (hq' : ValidPartition (l1Norms (transposeL coef hiddenSize)) k q')
    (hr : ValidArgsort (selectedVals (l1Norms (transposeL coef hiddenSize)) k q) r)
    (hr' : ValidArgsort (selectedVals (l1Norms (transposeL coef hiddenSize)) k q') r') :
    get_top_k_neuron_weights coef hiddenSize k b p q r
      = get_top_k_neuron_weights coef hiddenSize k b' p' q' r' ∧
    (get_top_k_neuron_weights coef hiddenSize k b p q r).length = k ∧
    (get_top_k_neuron_weights coef hiddenSize k b p q r).Nodup ∧
    (∀ i ∈ get_top_k_neuron_weights coef hiddenSize k b p q r,
        i < (l1Norms (transposeL coef hiddenSize)).length) ∧
    ((get_top_k_neuron_weights coef hiddenSize k b p q r).map
        (fun i => (l1Norms (transposeL coef hiddenSize)).getD i 0)).Sorted (· ≥ ·) := by
  by_cases hk1' : k = 1
  · subst hk1'
    have hne : l1Norms (transposeL coef hiddenSize) ≠ [] := by
      intro h
      rw [h] at hkn
      exact absurd hkn (by simp)
    have hunf : ∀ (bb : Bool) (pp qq rr : List ℕ),
        get_top_k_neuron_weights coef hiddenSize 1 bb pp qq rr
          = pathArgmax (l1Norms (transposeL coef hiddenSize)) := by
      intro bb pp qq rr
      simp [get_top_k_neuron_weights]
    refine ⟨by rw [hunf, hunf], ?_, ?_, ?_, ?_⟩
    · rw [hunf, pathArgmax, List.length_singleton]
    · rw [hunf, pathArgmax]
      exact List.nodup_singleton _
    · intro i hi
      rw [hunf, pathArgmax, List.mem_singleton] at hi
      rw [hi]
      exact argmaxNp_lt _ hne
    · rw [hunf, pathArgmax, List.map_singleton]
      exact List.sorted_singleton _
  · have hgen : ∀ (bb : Bool) (pp qq rr : List ℕ),
        ValidArgsort (l1Norms (transposeL coef hiddenSize)) pp →
        ValidPartition (l1Norms (transposeL coef hiddenSize)) k qq →
        ValidArgsort (selectedVals (l1Norms (transposeL coef hiddenSize)) k qq) rr →
        get_top_k_neuron_weights coef hiddenSize k bb pp qq rr
          = pathArgsort (l1Norms (transposeL coef hiddenSize)) k p := by
      intro bb pp qq rr hpp hqq hrr
      cases bb with
      | true =>
          simp only [get_top_k_neuron_weights, if_neg hk1', if_true]
          rw [validArgsort_unique (l1Norms (transposeL coef hiddenSize)) pp p hpp hp hinj]
      | false =>
          simp only [get_top_k_neuron_weights, if_neg hk1', Bool.false_eq_true,
            if_false]
          exact pathArgpartition_eq_pathArgsort (l1Norms (transposeL coef hiddenSize))
            k p qq rr hp hqq hrr (le_of_lt hkn) hinj
    obtain ⟨h1, h2, h3, h4⟩ := pathArgsort_props (l1Norms (transposeL coef hiddenSize))
      k p hp (le_of_lt hkn)
    refine ⟨by rw [hgen b p q r hp hq hr, hgen b' p' q' r' hp' hq' hr'], ?_, ?_, ?_, ?_⟩
    · rw [hgen b p q r hp hq hr]
      exact h1
    · rw [hgen b p q r hp hq hr]
      exact h2
    · rw [hgen b p q r hp hq hr]
      exact h3
    · rw [hgen b p q r hp hq hr]
      exact h4

/-- C8 amended, witness: coefficient row `[1, 2, 3]` (distinct penalties
`[1, 2, 3]`), `k = 2`, the two dispatch branches fed with the unique valid
sort results all return `[2, 1]`. -/
theorem C8_amended_witness :
    ((1 : ℕ) ≤ 2 ∧ 2 < (l1Norms (transposeL [[1, 2, 3]] 3)).length ∧
     ValidArgsort (l1Norms (transposeL [[1, 2, 3]] 3)) [0, 1, 2] ∧
     ValidPartition (l1Norms (transposeL [[1, 2, 3]] 3)) 2 [0, 1, 2] ∧
     ValidArgsort (selectedVals (l1Norms (transposeL [[1, 2, 3]] 3)) 2 [0, 1, 2]) [0, 1]) ∧
    (get_top_k_neuron_weights [[1, 2, 3]] 3 2 true [0, 1, 2] [0, 1, 2] [0, 1]
        = get_top_k_neuron_weights [[1, 2, 3]] 3 2 false [0, 1, 2] [0, 1, 2] [0, 1] ∧
      (get_top_k_neuron_weights [[1, 2, 3]] 3 2 true [0, 1, 2] [0, 1, 2] [0, 1]).length = 2 ∧
      (get_top_k_neuron_weights [[1, 2, 3]] 3 2 true [0, 1, 2] [0, 1, 2] [0, 1]).Nodup ∧
      (∀ i ∈ get_top_k_neuron_weights [[1, 2, 3]] 3 2 true [0, 1, 2] [0, 1, 2] [0, 1],
          i < (l1Norms (transposeL [[1, 2, 3]] 3)).length) ∧
      ((get_top_k_neuron_weights [[1, 2, 3]] 3 2 true [0, 1, 2] [0, 1, 2] [0, 1]).map
          (fun i => (l1Norms (transposeL [[1, 2, 3]] 3)).getD i 0)).Sorted (· ≥ ·)) := by
  have hv : l1Norms (transposeL [[1, 2, 3]] 3) = [1, 2, 3] := by
    norm_num [l1Norms, transposeL, List.range_succ]
  refine ⟨⟨by decide, by rw [hv]; decide, by rw [hv]; decide, by rw [hv]; decide,
    by rw [hv]; decide⟩, ?_⟩
  exact C8_amended [[1, 2, 3]] 3 2 true false [0, 1, 2] [0, 1, 2] [0, 1, 2] [0, 1, 2]
    [0, 1] [0, 1] (by decide) (by rw [hv]; decide)
    (by rw [hv]; decide)
    (by rw [hv]; decide) (by rw [hv]; decide) (by rw [hv]; decide) (by rw [hv]; decide)
    (by rw [hv]; decide) (by rw [hv]; decide)

end SN
